import Mathlib

/- Shallow embedding of the consolidation and hierarchical validation engine
   of the extract-data-pdfs repository: src/app/consolidator.py,
   src/app/arithmetic_validator.py, src/app/mascara_generator.py and the
   mask-generation decision of src/app/main.py.

   Python strings are Lean strings processed through their character lists.
   Python floats are modelled by `Dec`, decimal fixed-point numbers
   (an integer mantissa over a power-of-ten denominator): every monetary
   value handled by this program is produced by `normalize_number` from a
   decimal digit string and then combined by sums and differences, so all
   values are of this shape, and every comparison and sum of the checked
   properties is exact both for IEEE doubles and for `Dec`.  `Dec.toRat`
   gives the rational value of a `Dec` and is used to state numeric
   properties. -/

set_option maxRecDepth 8000

/-- Decimal fixed-point number: the value is `man / 10 ^ exp`.  Model of the
Python floats flowing through the pipeline. -/
structure Dec where
  man : ℤ
  exp : ℕ
deriving DecidableEq, Repr

/-- Rational value of a decimal fixed-point number. -/
def Dec.toRat (d : Dec) : ℚ :=
  (d.man : ℚ) / (10 : ℚ) ^ d.exp

/-- Addition of decimal fixed-point numbers (common-denominator form). -/
def Dec.add (a b : Dec) : Dec :=
  ⟨a.man * 10 ^ b.exp + b.man * 10 ^ a.exp, a.exp + b.exp⟩

/-- Negation of a decimal fixed-point number. -/
def Dec.neg (a : Dec) : Dec :=
  ⟨-a.man, a.exp⟩

instance : Add Dec := ⟨Dec.add⟩

instance : Zero Dec := ⟨⟨0, 0⟩⟩

instance : AddCommMonoid Dec where
  add := (· + ·)
  zero := 0
  add_assoc a b c := by
    show Dec.add (Dec.add a b) c = Dec.add a (Dec.add b c)
    simp only [Dec.add, Dec.mk.injEq]
    exact ⟨by ring, by omega⟩
  zero_add a := by
    show Dec.add ⟨0, 0⟩ a = a
    obtain ⟨m, e⟩ := a
    simp only [Dec.add, Dec.mk.injEq]
    exact ⟨by ring, by omega⟩
  add_zero a := by
    show Dec.add a ⟨0, 0⟩ = a
    obtain ⟨m, e⟩ := a
    simp only [Dec.add, Dec.mk.injEq]
    exact ⟨by ring, by omega⟩
  add_comm a b := by
    show Dec.add a b = Dec.add b a
    simp only [Dec.add, Dec.mk.injEq]
    exact ⟨by ring, by omega⟩
  nsmul := nsmulRec
  nsmul_zero _ := rfl
  nsmul_succ _ _ := rfl

instance : Neg Dec := ⟨Dec.neg⟩

/-- Subtraction of decimal fixed-point numbers. -/
def Dec.sub (a b : Dec) : Dec :=
  a + -b

instance : Sub Dec := ⟨Dec.sub⟩

/-- Absolute value of a decimal fixed-point number. -/
def Dec.abs (a : Dec) : Dec :=
  ⟨|a.man|, a.exp⟩

/-- Value comparison of decimal fixed-point numbers by cross-multiplication,
modelling the `<` of Python floats. -/
def Dec.blt (a b : Dec) : Bool :=
  decide (a.man * 10 ^ b.exp < b.man * 10 ^ a.exp)

/-- Whitespace characters handled by Python's `str.strip()` and by the regex
character class `[R$\s]` used in `normalize_number` (ASCII subset: space,
tab, newline, carriage return, vertical tab, form feed). -/
def isPyWS (c : Char) : Bool :=
  c == ' ' || c == '\t' || c == '\n' || c == '\r' || c == '\x0b' || c == '\x0c'

/-- Characters of a string with leading and trailing whitespace removed,
modelling Python `str.strip()` on the character list. -/
def stripChars (l : List Char) : List Char :=
  ((l.dropWhile isPyWS).reverse.dropWhile isPyWS).reverse

/-- Python `str.strip()` on Lean strings. -/
def stripS (s : String) : String :=
  String.mk (stripChars s.data)

/-- Value of a digit run read as a base-10 natural number. -/
def digitsValN (l : List Char) : ℕ :=
  l.foldl (fun acc c => acc * 10 + (c.toNat - '0'.toNat)) 0

/-- Modelled from Python's built-in `float(str)` restricted to the grammar
that `normalize_number` can feed it: digit runs with at most one decimal
point (no exponent, underscore, infinity or nan forms, which cannot arise
from the cleaning steps applied before the call).  Returns `none` where
`float` raises `ValueError`. -/
def parseFloatUnsigned (l : List Char) : Option Dec :=
  let ip := l.takeWhile Char.isDigit
  let rest := l.dropWhile Char.isDigit
  match rest with
  | [] => if ip.isEmpty then none else some ⟨(digitsValN ip : ℤ), 0⟩
  | '.' :: frac =>
      if frac.all Char.isDigit && (!ip.isEmpty || !frac.isEmpty) then
        some ⟨(digitsValN ip * 10 ^ frac.length + digitsValN frac : ℕ), frac.length⟩
      else none
  | _ => none

/-- Python `float(str)` with an optional leading sign. -/
def parseFloat (l : List Char) : Option Dec :=
  match l with
  | '-' :: rest => (parseFloatUnsigned rest).map Dec.neg
  | '+' :: rest => parseFloatUnsigned rest
  | _ => parseFloatUnsigned l

/-- Helper for `rfind`: highest index at which `c` occurs, offset by `i`,
or `-1` when absent. -/
def rfindFrom (c : Char) : List Char → Nat → Int
  | [], _ => -1
  | a :: as, i =>
      let rest := rfindFrom c as (i + 1)
      if rest = -1 then (if a = c then (i : Int) else -1) else rest

/-- Python `str.rfind`: highest index of `c` in `l`, `-1` when absent. -/
def rfind (l : List Char) (c : Char) : Int :=
  rfindFrom c l 0

/-- Removal of the currency marker and whitespace, modelling
`re.sub(r"[R$\s]", "", s)` in `normalize_number`: deletes every occurrence
of `R`, `$` and whitespace anywhere in the string. -/
def removeCurrencyWS (l : List Char) : List Char :=
  l.filter (fun c => !(c == 'R' || c == '$' || isPyWS c))

/-- Separator disambiguation step of `normalize_number`: with both `.` and
`,` present the one occurring later in the string is the decimal point and
the other is removed as a thousands separator; with only `,` present it is
the decimal point; with only `.` the string is left as is. -/
def decimalReshape (l : List Char) : List Char :=
  if l.contains ',' && l.contains '.' then
    if rfind l ',' > rfind l '.' then
      (l.filter (fun c => c != '.')).map (fun c => if c = ',' then '.' else c)
    else
      l.filter (fun c => c != ',')
  else if l.contains ',' then
    l.map (fun c => if c = ',' then '.' else c)
  else l

/-- Raw input of `normalize_number`: Python `None`, an already-numeric
value, or a string. -/
inductive RawValue where
  | null : RawValue
  | num (d : Dec) : RawValue
  | str (s : String) : RawValue
deriving DecidableEq

/-- Parenthesized-negative detection of `normalize_number`: the stripped
string starts with `(` and ends with `)`. -/
def isNegativeParen (s : String) : Bool :=
  let l := stripChars s.data
  l.head? == some '(' && l.getLast? == some ')'

/-- Digit string handed to `float` by `normalize_number`: the stripped
input, with surrounding parentheses removed when present, the currency
marker and whitespace deleted, and the decimal separator disambiguated. -/
def normalizedDigits (s : String) : List Char :=
  let l := stripChars s.data
  let l1 := if isNegativeParen s then stripChars ((l.drop 1).dropLast) else l
  decimalReshape (removeCurrencyWS l1)

/-- Embedding of `normalize_number` (src/app/consolidator.py, lines 10-64):
`None` and placeholder dashes map to 0, numeric input is cast, parenthesized
text is negated, the currency marker and whitespace are deleted, separators
are disambiguated, and a failed final parse falls back to 0. -/
def normalize_number (raw : RawValue) : Dec :=
  match raw with
  | .null => ⟨0, 0⟩
  | .num d => d
  | .str s =>
      let l := stripChars s.data
      if l = [] ∨ l = ['-'] ∨ l = ['–'] ∨ l = ['—'] then ⟨0, 0⟩
      else
        match parseFloat (normalizedDigits s) with
        | none => ⟨0, 0⟩
        | some v => if isNegativeParen s then Dec.neg v else v

example : (normalize_number (.str "R$ 1.234,56")) = ⟨123456, 2⟩ := by decide
example : (normalize_number (.str "(1.234,56)")) = ⟨-123456, 2⟩ := by decide
example : (normalize_number (.str "1,234.56")) = ⟨123456, 2⟩ := by decide
example : (normalize_number (.str "")) = ⟨0, 0⟩ := by decide
example : (normalize_number (.str "-")) = ⟨0, 0⟩ := by decide
example : (normalize_number (.str "1 234,56")) = ⟨123456, 2⟩ := by decide
example : (normalize_number (.str "12R3")) = ⟨123, 0⟩ := by decide
example : (normalize_number (.str "12r3")) = ⟨0, 0⟩ := by decide
example : (normalize_number (.str "abc")) = ⟨0, 0⟩ := by decide
example : Dec.toRat ⟨123456, 2⟩ = 1234.56 := by norm_num [Dec.toRat]

/-- One accounting line of the consolidated table, with the columns read by
the deduplicator, the mask gateway and the hierarchy validator
(`Tipo`, `Periodo`, `Conta`, `Mascara_Contabil`, `Ano_Anterior`,
`Ano_Atual`, `Pagina_Origem`). -/
structure Row where
  tipo : String
  periodo : String
  conta : String
  mascara : String
  anoAnterior : Dec
  anoAtual : Dec
  pagina : String
deriving DecidableEq, Repr

/-- Key of `deduplicate` (src/app/consolidator.py, line 151):
`(Tipo, Mascara_Contabil, Conta, Pagina_Origem)`. -/
def dedupKey (r : Row) : String × String × String × String :=
  (r.tipo, r.mascara, r.conta, r.pagina)

/-- One step of the `deduplicate` loop: a row whose key was already seen is
merged into the retained first occurrence by summing `Ano_Anterior` and
`Ano_Atual`; otherwise the row is appended, keeping first-seen order. -/
def addRow (acc : List Row) (row : Row) : List Row :=
  if acc.any (fun g => decide (dedupKey g = dedupKey row)) then
    acc.map (fun g =>
      if dedupKey g = dedupKey row then
        { g with anoAnterior := g.anoAnterior + row.anoAnterior,
                 anoAtual := g.anoAtual + row.anoAtual }
      else g)
  else acc ++ [row]

/-- Embedding of `deduplicate` (src/app/consolidator.py, lines 143-165):
the dict of groups plus insertion-order list is modelled by a fold that
keeps merged rows in first-seen order. -/
def deduplicate (rows : List Row) : List Row :=
  rows.foldl addRow []

/-- Helper of `firstSeen`: keeps elements not yet seen, in order. -/
def firstSeenAux {α : Type} [DecidableEq α] : List α → List α → List α
  | [], _ => []
  | a :: as, seen =>
      if a ∈ seen then firstSeenAux as seen
      else a :: firstSeenAux as (a :: seen)

/-- First occurrence of each element, in first-seen order (the key order of
an insertion-ordered Python dict). -/
def firstSeen {α : Type} [DecidableEq α] (l : List α) : List α :=
  firstSeenAux l []

/-- Merge of later duplicates into a first occurrence: values are summed,
every other field comes from the first occurrence. -/
def mergeDups (first : Row) (dups : List Row) : Row :=
  { first with anoAnterior := first.anoAnterior + (dups.map Row.anoAnterior).sum,
               anoAtual := first.anoAtual + (dups.map Row.anoAtual).sum }

/-- Specification shape of the deduplicator, written from the spec contract:
one row per distinct key in first-seen order, later duplicates summed into
the first occurrence. -/
def dedupSpec : List Row → List Row
  | [] => []
  | r :: rs =>
      mergeDups r (rs.filter (fun x => decide (dedupKey x = dedupKey r))) ::
      dedupSpec (rs.filter (fun x => decide (dedupKey x ≠ dedupKey r)))
termination_by l => l.length
decreasing_by simp only [List.length_cons]; exact Nat.lt_succ_of_le (List.length_filter_le _ _)

/-- Statement-group key of the hierarchy validator
(src/app/arithmetic_validator.py, lines 50-54): the stripped
`(Tipo, Periodo, Pagina_Origem)` triple. -/
def gkey (r : Row) : String × String × String :=
  (stripS r.tipo, stripS r.periodo, stripS r.pagina)

/-- Group keys in first-seen order, matching the insertion order of the
`defaultdict` used by `validar_aritmetica`. -/
def groupKeys (rows : List Row) : List (String × String × String) :=
  firstSeen (rows.map gkey)

/-- Rows of one statement group, in input order. -/
def groupRowsOf (rows : List Row) (k : String × String × String) : List Row :=
  rows.filter (fun r => decide (gkey r = k))

/-- Embedding of `_get_level` (src/app/arithmetic_validator.py, lines
11-19): hierarchical level of a mask, its dot count plus one. -/
def get_level (mascara : String) : ℕ :=
  mascara.data.count '.' + 1

/-- Embedding of `_is_direct_child` (src/app/arithmetic_validator.py, lines
22-32): the child mask starts with the parent mask followed by `.` and has
exactly one more level. -/
def is_direct_child (parent_mask child_mask : String) : Bool :=
  (parent_mask ++ ".").data.isPrefixOf child_mask.data &&
    get_level child_mask == get_level parent_mask + 1

/-- Mask-to-row map of one group (first occurrence wins), modelling the
insertion-ordered dict `mask_map` of `validar_aritmetica`. -/
def buildMaskMap (l : List Row) : List (String × Row) :=
  l.foldl (fun acc r =>
    let m := stripS r.mascara
    if (acc.find? (fun p => decide (p.1 = m))).isSome then acc
    else acc ++ [(m, r)]) []

/-- Lookup in the mask map. -/
def lookupRow (mm : List (String × Row)) (m : String) : Option Row :=
  (mm.find? (fun p => decide (p.1 = m))).map Prod.snd

/-- One inconsistency record of `validar_aritmetica`: the page label plus
the data interpolated into the error message (mask, parent account name,
expected children sum, found parent value and signed difference, for the
current and the prior period). -/
structure Report where
  pagina : String
  mascara : String
  conta : String
  esperadoAtual : Dec
  encontradoAtual : Dec
  diffAtual : Dec
  esperadoAnterior : Dec
  encontradoAnterior : Dec
  diffAnterior : Dec
deriving DecidableEq, Repr

/-- Per-parent check of `validar_aritmetica` (lines 79-117): a parent mask
with no direct children among `order` is skipped; otherwise the children
sums are compared against the parent row's own values and a single error
record covering both periods is emitted when either difference exceeds the
tolerance 1.0.  (`float(... or 0)` in the source is the identity on the
already-normalized numeric values and is not re-modelled.) -/
def checkParent (order : List String) (mm : List (String × Row))
    (pagina : String) (parent_mask : String) : Option Report :=
  let children_masks := order.filter (fun cm => is_direct_child parent_mask cm)
  if children_masks.isEmpty then none
  else
    match lookupRow mm parent_mask with
    | none => none
    | some parent_row =>
        let conta_pai := stripS parent_row.conta
        let valor_pai_atual := parent_row.anoAtual
        let valor_pai_ant := parent_row.anoAnterior
        let soma_filhos_atual :=
          (children_masks.map (fun cm => ((lookupRow mm cm).map Row.anoAtual).getD 0)).sum
        let soma_filhos_ant :=
          (children_masks.map (fun cm => ((lookupRow mm cm).map Row.anoAnterior).getD 0)).sum
        let diff_atual := soma_filhos_atual - valor_pai_atual
        let diff_ant := soma_filhos_ant - valor_pai_ant
        if Dec.blt ⟨1, 0⟩ diff_atual.abs || Dec.blt ⟨1, 0⟩ diff_ant.abs then
          some ⟨pagina, parent_mask, conta_pai, soma_filhos_atual, valor_pai_atual,
                diff_atual, soma_filhos_ant, valor_pai_ant, diff_ant⟩
        else none

/-- Mask map of one statement group: rows of the group with an empty
(stripped) mask discarded, the rest keyed by stripped mask, first
occurrence winning. -/
def groupMaskMap (rows : List Row) (k : String × String × String) :
    List (String × Row) :=
  buildMaskMap ((groupRowsOf rows k).filter (fun r => decide (stripS r.mascara ≠ "")))

/-- Embedding of `validar_aritmetica` (src/app/arithmetic_validator.py,
lines 35-124).  The iteration order over the mask set of each group is the
Python `set` iteration order, which is not specified; it is modelled by the
parameter `enum`, a function producing the traversal order of a key list.
Admissible orders are the permutations of the key list. -/
def validar_aritmetica (enum : List String → List String) (rows : List Row) :
    List Report :=
  (groupKeys rows).flatMap (fun k =>
    let mm := groupMaskMap rows k
    let all_masks := enum (mm.map Prod.fst)
    all_masks.filterMap (fun pm => checkParent all_masks mm k.2.2 pm))

/-- Number of rows with an empty (stripped) mask, as counted by
`verificar_mascaras` (src/app/mascara_generator.py, lines 47-63). -/
def missingMaskCount (rows : List Row) : ℕ :=
  rows.countP (fun r => decide (stripS r.mascara = ""))

/-- Embedding of `verificar_mascaras`: returns `(all_have_masks, missing)`. -/
def verificar_mascaras (rows : List Row) : Bool × ℕ :=
  (missingMaskCount rows == 0, missingMaskCount rows)

/-- Threshold `MASK_GENERATION_THRESHOLD = 0.80` of src/app/main.py. -/
def maskGenerationThreshold : ℚ := 4 / 5

/-- Decision of `extract_endpoint` (src/app/main.py, lines 223-241): the
mask-inference collaborator is invoked only when not all rows have masks,
the row list is nonempty, and `missing / len(rows)` is at or above the
threshold. -/
def shouldGenerateMasks (rows : List Row) : Bool :=
  let vm := verificar_mascaras rows
  if vm.1 then false
  else if !rows.isEmpty then
    decide (maskGenerationThreshold ≤ (vm.2 : ℚ) / (rows.length : ℚ))
  else false

/-- One entry of the mask-inference collaborator's response list:
`upd.get("index")` (absent modelled as `none`, out-of-range integers kept)
and `upd.get("mascara", "")`. -/
structure MaskUpdate where
  index : Option ℤ
  mascara : String
deriving DecidableEq, Repr

/-- One step of the merge loop of `gerar_mascaras`
(src/app/mascara_generator.py, lines 122-130): a suggestion is applied only
when the index is present and in range, the suggested mask is nonempty
after stripping, and the target row's mask is still empty; otherwise the
rows are left unchanged. -/
def applyOne (rows : List Row) (u : MaskUpdate) : List Row :=
  match u.index with
  | none => rows
  | some idx =>
      let m := stripS u.mascara
      if m ≠ "" ∧ 0 ≤ idx ∧ idx < (rows.length : ℤ) then
        match rows.get? idx.toNat with
        | none => rows
        | some row =>
            if stripS row.mascara = "" then
              rows.set idx.toNat { row with mascara := m }
            else rows
      else rows

/-- Merge loop of `gerar_mascaras` over a full suggestion list.  The
network, retry and chunking parts of `gerar_mascaras` are I/O plumbing
around this loop and are not modelled. -/
def gerar_mascaras_apply (rows : List Row) (upds : List MaskUpdate) : List Row :=
  upds.foldl applyOne rows

/-- Direct children of a parent mask among the keys of a mask map, per the
direct-child definition of the spec. -/
def childrenOf (mm : List (String × Row)) (pm : String) : List String :=
  (mm.map Prod.fst).filter (fun cm => is_direct_child pm cm)

/-- Value of a column of the authoritative row of a mask, as a rational. -/
def maskValue (mm : List (String × Row)) (m : String) (f : Row → Dec) : ℚ :=
  ((((lookupRow mm m).map f).getD 0)).toRat

/-- Specification-level per-parent condition of the hierarchy check: the
parent mask has direct children among the group's masks and the children
sum differs from the parent's own value by more than the tolerance 1.0 in
the current period or in the prior period. -/
def violates (mm : List (String × Row)) (pm : String) : Bool :=
  let children := childrenOf mm pm
  !children.isEmpty &&
    (decide (1 < |(children.map (fun cm => maskValue mm cm Row.anoAtual)).sum
        - maskValue mm pm Row.anoAtual|) ||
     decide (1 < |(children.map (fun cm => maskValue mm cm Row.anoAnterior)).sum
        - maskValue mm pm Row.anoAnterior|))

/-- Specification-level count of parent masks that violate the hierarchy
check, over all statement groups. -/
def totalViolations (rows : List Row) : ℕ :=
  ((groupKeys rows).map (fun k =>
    ((groupMaskMap rows k).map Prod.fst).countP (violates (groupMaskMap rows k)))).sum

/-- Statement group used by the spec's Hierarchy Validator test: parent
mask `1` (current 100.00) with direct children `1.01` (60.00) and `1.02`
(41.50); prior values all zero. -/
def c3RowsBad : List Row :=
  [⟨"BP", "09/2023", "ATIVO", "1", ⟨0, 0⟩, ⟨10000, 2⟩, "PDF1-P1"⟩,
   ⟨"BP", "09/2023", "Ativo Circulante", "1.01", ⟨0, 0⟩, ⟨6000, 2⟩, "PDF1-P1"⟩,
   ⟨"BP", "09/2023", "Ativo Nao Circulante", "1.02", ⟨0, 0⟩, ⟨4150, 2⟩, "PDF1-P1"⟩]

/-- Same group with child `1.02` changed to 40.00, so the children sum
exactly matches the parent. -/
def c3RowsGood : List Row :=
  [⟨"BP", "09/2023", "ATIVO", "1", ⟨0, 0⟩, ⟨10000, 2⟩, "PDF1-P1"⟩,
   ⟨"BP", "09/2023", "Ativo Circulante", "1.01", ⟨0, 0⟩, ⟨6000, 2⟩, "PDF1-P1"⟩,
   ⟨"BP", "09/2023", "Ativo Nao Circulante", "1.02", ⟨0, 0⟩, ⟨4000, 2⟩, "PDF1-P1"⟩]

/-- Group whose parent `1` is off by 10.00 in the current period and by
10.00 in the prior period: both comparisons exceed the tolerance. -/
def c1Rows : List Row :=
  [⟨"BP", "09/2023", "ATIVO", "1", ⟨10000, 2⟩, ⟨10000, 2⟩, "PDF1-P1"⟩,
   ⟨"BP", "09/2023", "Ativo Circulante", "1.01", ⟨6000, 2⟩, ⟨6000, 2⟩, "PDF1-P1"⟩,
   ⟨"BP", "09/2023", "Ativo Nao Circulante", "1.02", ⟨5000, 2⟩, ⟨5000, 2⟩, "PDF1-P1"⟩]

/-- Group with two inconsistent parents (`1` and `2`), so the report order
depends on the iteration order over the group's mask set. -/
def c2Rows : List Row :=
  [⟨"BP", "09/2023", "ATIVO", "1", ⟨0, 0⟩, ⟨10000, 2⟩, "PDF1-P1"⟩,
   ⟨"BP", "09/2023", "Ativo Circulante", "1.01", ⟨0, 0⟩, ⟨6000, 2⟩, "PDF1-P1"⟩,
   ⟨"BP", "09/2023", "PASSIVO", "2", ⟨0, 0⟩, ⟨10000, 2⟩, "PDF1-P1"⟩,
   ⟨"BP", "09/2023", "Passivo Circulante", "2.01", ⟨0, 0⟩, ⟨7000, 2⟩, "PDF1-P1"⟩]

/-- Minimal row constructor for the mask-threshold examples. -/
def mkMaskRow (mascara : String) : Row :=
  ⟨"BP", "09/2023", "Conta", mascara, ⟨0, 0⟩, ⟨0, 0⟩, "PDF1-P1"⟩

/-- Five rows, three with a missing mask (60 percent missing). -/
def c6RowsLow : List Row :=
  [mkMaskRow "1", mkMaskRow "", mkMaskRow "", mkMaskRow "", mkMaskRow "2"]

/-- Ten rows, nine with a missing mask (90 percent missing). -/
def c6RowsHigh : List Row :=
  mkMaskRow "1" :: List.replicate 9 (mkMaskRow "")

/-- Two rows sharing the dedup key with distinct periods and values. -/
def c5Row1 : Row := ⟨"BP", "09/2023", "Caixa", "1.01", ⟨100, 2⟩, ⟨200, 2⟩, "PDF1-P1"⟩

def c5Row2 : Row := ⟨"BP", "12/2023", "Caixa", "1.01", ⟨50, 2⟩, ⟨75, 2⟩, "PDF1-P1"⟩

/-- Rows sharing the mask `1.01` but with different origin pages. -/
def c8Row1 : Row := ⟨"BP", "09/2023", "Caixa", "1.01", ⟨0, 0⟩, ⟨100, 2⟩, "PDF1-P1"⟩

def c8Row2 : Row := ⟨"BP", "09/2023", "Caixa", "1.01", ⟨0, 0⟩, ⟨999, 2⟩, "PDF2-P3"⟩

/-- Row on the same page as `c8Row1`, with a different mask. -/
def c8Row3 : Row := ⟨"BP", "09/2023", "Bancos", "1.02", ⟨0, 0⟩, ⟨50, 2⟩, "PDF1-P1"⟩

/-- Rows for the mask-merge examples: index 0 already has a mask, index 1
does not. -/
def c9Rows : List Row :=
  [⟨"BP", "09/2023", "ATIVO", "1", ⟨0, 0⟩, ⟨0, 0⟩, "PDF1-P1"⟩,
   ⟨"BP", "09/2023", "Caixa", "", ⟨0, 0⟩, ⟨0, 0⟩, "PDF1-P1"⟩]

/-- Suggestion list: one pair targets the already-masked row 0, one fills
row 1, one is out of range, one has a negative index. -/
def c9Upds : List MaskUpdate :=
  [⟨some 0, "9"⟩, ⟨some 1, "1.01"⟩, ⟨some 7, "2"⟩, ⟨some (-2), "3"⟩]

theorem Dec.toRat_zero : (0 : Dec).toRat = 0 := by
  show Dec.toRat ⟨0, 0⟩ = 0
  simp [Dec.toRat]

theorem Dec.toRat_add (a b : Dec) : (a + b).toRat = a.toRat + b.toRat := by
  show (Dec.add a b).toRat = _
  simp only [Dec.add, Dec.toRat]
  have h1 : ((10 : ℚ) ^ a.exp) ≠ 0 := by positivity
  have h2 : ((10 : ℚ) ^ b.exp) ≠ 0 := by positivity
  rw [pow_add]
  push_cast
  field_simp

theorem Dec.toRat_neg (a : Dec) : (-a).toRat = -a.toRat := by
  show (Dec.neg a).toRat = _
  simp [Dec.neg, Dec.toRat, neg_div]

theorem Dec.toRat_sub (a b : Dec) : (a - b).toRat = a.toRat - b.toRat := by
  show (Dec.sub a b).toRat = _
  unfold Dec.sub
  rw [Dec.toRat_add, Dec.toRat_neg]
  ring

theorem Dec.toRat_abs (a : Dec) : (Dec.abs a).toRat = |a.toRat| := by
  simp only [Dec.abs, Dec.toRat, abs_div]
  congr 1
  · exact Int.cast_abs
  · rw [abs_of_nonneg (by positivity)]

theorem Dec.blt_iff (a b : Dec) : Dec.blt a b = true ↔ a.toRat < b.toRat := by
  simp only [Dec.blt, Dec.toRat, decide_eq_true_eq]
  rw [div_lt_div_iff (by positivity) (by positivity)]
  constructor
  · intro h; exact_mod_cast h
  · intro h; exact_mod_cast h

theorem Dec.toRat_sum (l : List Dec) : l.sum.toRat = (l.map Dec.toRat).sum := by
  induction l with
  | nil => simpa using Dec.toRat_zero
  | cons a as ih => simp [List.sum_cons, Dec.toRat_add, ih]

theorem stripChars_eq_rdrop (l : List Char) :
    stripChars l = List.rdropWhile isPyWS (l.dropWhile isPyWS) := rfl

theorem stripChars_idem (l : List Char) :
    stripChars (stripChars l) = stripChars l := by
  rw [stripChars_eq_rdrop, stripChars_eq_rdrop]
  have h1 : (List.rdropWhile isPyWS (l.dropWhile isPyWS)).dropWhile isPyWS
      = List.rdropWhile isPyWS (l.dropWhile isPyWS) := by
    rw [List.dropWhile_eq_self_iff]
    intro hl
    have hpre : List.rdropWhile isPyWS (l.dropWhile isPyWS) <+: l.dropWhile isPyWS :=
      List.rdropWhile_prefix _ _
    have hlen : 0 < (l.dropWhile isPyWS).length := hl.trans_le hpre.length_le
    have hget : (List.rdropWhile isPyWS (l.dropWhile isPyWS)).get ⟨0, hl⟩
        = (l.dropWhile isPyWS).get ⟨0, hlen⟩ := by
      simp only [List.get_eq_getElem]
      exact List.IsPrefix.getElem hpre hl
    rw [hget]
    exact List.dropWhile_get_zero_not _ _ hlen
  rw [h1, List.rdropWhile_idempotent]

theorem stripS_idem (s : String) : stripS (stripS s) = stripS s := by
  unfold stripS
  rw [show (String.mk (stripChars s.data)).data = stripChars s.data from rfl,
    stripChars_idem]

theorem mergeDups_nil (g : Row) : mergeDups g [] = g := by
  cases g
  simp [mergeDups]

theorem dedupKey_mergeDups (g : Row) (l : List Row) :
    dedupKey (mergeDups g l) = dedupKey g := rfl

theorem mergeDups_absorb (g r : Row) (l : List Row) :
    mergeDups { g with anoAnterior := g.anoAnterior + r.anoAnterior,
                       anoAtual := g.anoAtual + r.anoAtual } l
      = mergeDups g (r :: l) := by
  simp [mergeDups, add_assoc]

theorem foldl_addRow (rows : List Row) :
    ∀ acc : List Row, (acc.map dedupKey).Nodup →
      rows.foldl addRow acc =
        acc.map (fun g => mergeDups g
          (rows.filter (fun x => decide (dedupKey x = dedupKey g))))
        ++ dedupSpec (rows.filter (fun x => decide (dedupKey x ∉ acc.map dedupKey))) := by
  induction rows with
  | nil =>
      intro acc _
      simp [mergeDups_nil, dedupSpec, List.map_id']
  | cons r rs ih =>
      intro acc hnd
      by_cases hmem : dedupKey r ∈ acc.map dedupKey
      · have hcond : acc.any (fun g => decide (dedupKey g = dedupKey r)) = true := by
          rw [List.any_eq_true]
          obtain ⟨g, hg, hkey⟩ := List.mem_map.mp hmem
          exact ⟨g, hg, by simp [hkey]⟩
        have haddRow : addRow acc r = acc.map (fun g =>
            if dedupKey g = dedupKey r then
              { g with anoAnterior := g.anoAnterior + r.anoAnterior,
                       anoAtual := g.anoAtual + r.anoAtual }
            else g) := by
          simp only [addRow, hcond, if_true]
        have hkeyF : ∀ g : Row, dedupKey (if dedupKey g = dedupKey r then
            { g with anoAnterior := g.anoAnterior + r.anoAnterior,
                     anoAtual := g.anoAtual + r.anoAtual }
            else g) = dedupKey g := by
          intro g
          by_cases h : dedupKey g = dedupKey r
          · rw [if_pos h]; rfl
          · rw [if_neg h]
        have hkeys : (acc.map (fun g =>
            if dedupKey g = dedupKey r then
              { g with anoAnterior := g.anoAnterior + r.anoAnterior,
                       anoAtual := g.anoAtual + r.anoAtual }
            else g)).map dedupKey = acc.map dedupKey := by
          rw [List.map_map]
          exact List.map_eq_map_iff.mpr (fun g _ => hkeyF g)
        rw [List.foldl_cons, haddRow, ih _ (by rw [hkeys]; exact hnd)]
        congr 1
        · rw [List.map_map]
          apply List.map_eq_map_iff.mpr
          intro g hg
          simp only [Function.comp]
          simp only [hkeyF g]
          by_cases h : dedupKey g = dedupKey r
          · rw [if_pos h, mergeDups_absorb]
            congr 1
            rw [List.filter_cons]
            simp [h.symm]
          · rw [if_neg h]
            congr 1
            rw [List.filter_cons]
            have hne : dedupKey r ≠ dedupKey g := fun hc => h hc.symm
            simp [hne]
        · rw [hkeys]
          congr 1
          rw [List.filter_cons]
          simp [hmem]
      · have hcond : acc.any (fun g => decide (dedupKey g = dedupKey r)) = false := by
          rw [List.any_eq_false]
          intro g hg
          simp only [decide_eq_true_eq]
          intro hkey
          exact hmem (List.mem_map.mpr ⟨g, hg, hkey⟩)
        have haddRow : addRow acc r = acc ++ [r] := by
          simp only [addRow, hcond, Bool.false_eq_true, if_false]
        have hkeys : ((acc ++ [r]).map dedupKey) = acc.map dedupKey ++ [dedupKey r] := by
          simp
        have hnd2 : ((acc ++ [r]).map dedupKey).Nodup := by
          rw [hkeys, List.nodup_append]
          exact ⟨hnd, List.nodup_singleton _, by
            intro k hk
            simp only [List.mem_singleton]
            intro he
            exact hmem (he ▸ hk)⟩
        rw [List.foldl_cons, haddRow, ih _ hnd2]
        rw [List.map_append, List.append_assoc]
        congr 1
        · apply List.map_eq_map_iff.mpr
          intro g hg
          congr 1
          rw [List.filter_cons]
          have : dedupKey r ≠ dedupKey g := by
            intro hc
            exact hmem (hc ▸ List.mem_map.mpr ⟨g, hg, rfl⟩)
          simp [this]
        · have hfr : (r :: rs).filter (fun x => decide (dedupKey x ∉ acc.map dedupKey))
              = r :: rs.filter (fun x => decide (dedupKey x ∉ acc.map dedupKey)) := by
            rw [List.filter_cons]
            simp [hmem]
          rw [hfr, dedupSpec]
          simp only [List.map_cons, List.map_nil, List.singleton_append,
            List.nil_append, List.cons_append]
          congr 1
          · congr 1
            rw [List.filter_filter]
            apply List.filter_congr
            intro x hx
            by_cases h : dedupKey x = dedupKey r
            · simp [h, hmem]
            · simp [h]
          · congr 1
            rw [List.filter_filter]
            apply List.filter_congr
            intro x hx
            rw [hkeys]
            by_cases h : dedupKey x = dedupKey r <;>
              by_cases h2 : dedupKey x ∈ acc.map dedupKey <;>
                simp [h, h2]

theorem deduplicate_eq_dedupSpec (rows : List Row) :
    deduplicate rows = dedupSpec rows := by
  unfold deduplicate
  rw [foldl_addRow rows [] (by simp)]
  simp only [List.map_nil, List.nil_append]
  congr 1
  apply List.filter_eq_self.mpr
  intro a _
  simp

theorem firstSeenAux_congr {α : Type} [DecidableEq α] (l : List α) :
    ∀ s₁ s₂ : List α, (∀ x, x ∈ s₁ ↔ x ∈ s₂) →
      firstSeenAux l s₁ = firstSeenAux l s₂ := by
  induction l with
  | nil => intro s₁ s₂ _; rfl
  | cons a as ih =>
      intro s₁ s₂ h
      simp only [firstSeenAux]
      by_cases ha : a ∈ s₁
      · rw [if_pos ha, if_pos ((h a).mp ha)]
        exact ih s₁ s₂ h
      · rw [if_neg ha, if_neg (fun hx => ha ((h a).mpr hx))]
        congr 1
        apply ih
        intro x
        simp only [List.mem_cons]
        rw [h x]

theorem firstSeenAux_filter {α : Type} [DecidableEq α] (l : List α) :
    ∀ (seen : List α) (a : α), a ∉ seen →
      firstSeenAux l (a :: seen)
        = firstSeenAux (l.filter (fun x => decide (x ≠ a))) seen := by
  induction l with
  | nil => intro seen a _; rfl
  | cons b bs ih =>
      intro seen a ha
      by_cases hb : b = a
      · subst hb
        rw [firstSeenAux, if_pos (List.mem_cons_self b seen)]
        rw [List.filter_cons]
        have hdec : (decide (b ≠ b)) = false := by simp
        rw [hdec]
        simp only [Bool.false_eq_true, if_false]
        exact ih seen b ha
      · by_cases hbs : b ∈ seen
        · rw [firstSeenAux, if_pos (List.mem_cons_of_mem a hbs)]
          rw [List.filter_cons]
          have : (decide (b ≠ a)) = true := by simp [hb]
          rw [this, if_pos rfl, firstSeenAux, if_pos hbs]
          exact ih seen a ha
        · have hbna : b ∉ a :: seen := by
            intro hc
            rcases List.mem_cons.mp hc with hc | hc
            · exact hb hc
            · exact hbs hc
          rw [firstSeenAux, if_neg hbna]
          rw [List.filter_cons]
          have hdec : (decide (b ≠ a)) = true := by simp [hb]
          rw [hdec, if_pos rfl, firstSeenAux, if_neg hbs]
          congr 1
          have hswap : firstSeenAux bs (b :: a :: seen)
              = firstSeenAux bs (a :: b :: seen) := by
            apply firstSeenAux_congr
            intro x
            simp only [List.mem_cons]
            tauto
          rw [hswap]
          apply ih
          intro hc
          rcases List.mem_cons.mp hc with hc | hc
          · exact hb hc.symm
          · exact ha hc

theorem firstSeen_cons {α : Type} [DecidableEq α] (a : α) (as : List α) :
    firstSeen (a :: as) = a :: firstSeen (as.filter (fun x => decide (x ≠ a))) := by
  unfold firstSeen
  rw [firstSeenAux, if_neg (List.not_mem_nil a)]
  congr 1
  exact firstSeenAux_filter as [] a (List.not_mem_nil a)

theorem dedupSpec_map_key (rows : List Row) :
    (dedupSpec rows).map dedupKey = firstSeen (rows.map dedupKey) := by
  induction rows using dedupSpec.induct with
  | case1 => rw [dedupSpec]; rfl
  | case2 r rs ih =>
      rw [dedupSpec]
      simp only [List.map_cons, dedupKey_mergeDups]
      rw [firstSeen_cons]
      congr 1
      rw [ih]
      congr 1
      rw [List.map_filter]
      rfl

theorem dedupSpec_mem (rows : List Row) :
    ∀ q ∈ dedupSpec rows, ∃ first, first ∈ rows ∧ dedupKey first = dedupKey q
      ∧ q.tipo = first.tipo ∧ q.periodo = first.periodo ∧ q.conta = first.conta
      ∧ q.mascara = first.mascara ∧ q.pagina = first.pagina
      ∧ q.anoAtual
        = ((rows.filter (fun x => decide (dedupKey x = dedupKey first))).map Row.anoAtual).sum
      ∧ q.anoAnterior
        = ((rows.filter (fun x => decide (dedupKey x = dedupKey first))).map Row.anoAnterior).sum := by
  induction rows using dedupSpec.induct with
  | case1 =>
      intro q hq
      rw [dedupSpec] at hq
      simp at hq
  | case2 r rs ih =>
      intro q hq
      rw [dedupSpec] at hq
      rcases List.mem_cons.mp hq with hq | hq
      · subst hq
        refine ⟨r, List.mem_cons_self r rs, rfl, rfl, rfl, rfl, rfl, rfl, ?_, ?_⟩
        · show (mergeDups r _).anoAtual = _
          rw [List.filter_cons]
          simp [mergeDups]
        · show (mergeDups r _).anoAnterior = _
          rw [List.filter_cons]
          simp [mergeDups]
      · obtain ⟨first, hmem, hkey, h1, h2, h3, h4, h5, hs1, hs2⟩ := ih q hq
        obtain ⟨hmem', hne⟩ := List.mem_filter.mp hmem
        have hner : dedupKey first ≠ dedupKey r := by
          simpa using hne
        have hfilter : (rs.filter (fun x => decide (dedupKey x ≠ dedupKey r))).filter
              (fun x => decide (dedupKey x = dedupKey first))
            = rs.filter (fun x => decide (dedupKey x = dedupKey first)) := by
          rw [List.filter_filter]
          apply List.filter_congr
          intro x _
          by_cases h : dedupKey x = dedupKey first
          · simp [h, hner]
          · simp [h]
        have hcons : (r :: rs).filter (fun x => decide (dedupKey x = dedupKey first))
            = rs.filter (fun x => decide (dedupKey x = dedupKey first)) := by
          rw [List.filter_cons]
          have : dedupKey r ≠ dedupKey first := fun hc => hner hc.symm
          simp [this]
        refine ⟨first, List.mem_cons_of_mem r hmem', hkey, h1, h2, h3, h4, h5, ?_, ?_⟩
        · rw [hcons, ← hfilter]; exact hs1
        · rw [hcons, ← hfilter]; exact hs2

theorem firstSeenAux_subset {α : Type} [DecidableEq α] (l : List α) :
    ∀ seen : List α, firstSeenAux l seen ⊆ l := by
  induction l with
  | nil => intro seen x hx; exact absurd hx (List.not_mem_nil x)
  | cons a as ih =>
      intro seen x hx
      rw [firstSeenAux] at hx
      by_cases ha : a ∈ seen
      · rw [if_pos ha] at hx
        exact List.mem_cons_of_mem a (ih seen hx)
      · rw [if_neg ha] at hx
        rcases List.mem_cons.mp hx with h | h
        · exact h ▸ List.mem_cons_self a as
        · exact List.mem_cons_of_mem a (ih _ h)

theorem firstSeen_subset {α : Type} [DecidableEq α] (l : List α) :
    firstSeen l ⊆ l :=
  firstSeenAux_subset l []

theorem firstSeenAux_not_seen {α : Type} [DecidableEq α] (l : List α) :
    ∀ (seen : List α) (x : α), x ∈ firstSeenAux l seen → x ∉ seen := by
  induction l with
  | nil => intro seen x hx; exact absurd hx (List.not_mem_nil x)
  | cons a as ih =>
      intro seen x hx
      rw [firstSeenAux] at hx
      by_cases ha : a ∈ seen
      · rw [if_pos ha] at hx
        exact ih seen x hx
      · rw [if_neg ha] at hx
        rcases List.mem_cons.mp hx with h | h
        · exact h ▸ ha
        · intro hc
          exact ih _ x h (List.mem_cons_of_mem a hc)

theorem firstSeenAux_nodup {α : Type} [DecidableEq α] (l : List α) :
    ∀ seen : List α, (firstSeenAux l seen).Nodup := by
  induction l with
  | nil => intro seen; exact List.nodup_nil
  | cons a as ih =>
      intro seen
      rw [firstSeenAux]
      by_cases ha : a ∈ seen
      · rw [if_pos ha]; exact ih seen
      · rw [if_neg ha]
        refine List.Nodup.cons ?_ (ih _)
        intro hmem
        exact firstSeenAux_not_seen as _ a hmem (List.mem_cons_self a seen)

theorem firstSeen_nodup {α : Type} [DecidableEq α] (l : List α) :
    (firstSeen l).Nodup :=
  firstSeenAux_nodup l []

theorem checkParent_perm {o₁ o₂ : List String} (mm : List (String × Row))
    (pagina pm : String) (h : o₁.Perm o₂) :
    checkParent o₁ mm pagina pm = checkParent o₂ mm pagina pm := by
  have hf : (o₁.filter (fun cm => is_direct_child pm cm)).Perm
      (o₂.filter (fun cm => is_direct_child pm cm)) := h.filter _
  have hie : (o₁.filter (fun cm => is_direct_child pm cm)).isEmpty
      = (o₂.filter (fun cm => is_direct_child pm cm)).isEmpty := by
    rw [Bool.eq_iff_iff, List.isEmpty_iff, List.isEmpty_iff]
    constructor
    · intro h1
      rw [h1] at hf
      exact hf.symm.eq_nil
    · intro h2
      rw [h2] at hf
      exact hf.eq_nil
  have hs1 : ((o₁.filter (fun cm => is_direct_child pm cm)).map
        (fun cm => ((lookupRow mm cm).map Row.anoAtual).getD 0)).sum
      = ((o₂.filter (fun cm => is_direct_child pm cm)).map
        (fun cm => ((lookupRow mm cm).map Row.anoAtual).getD 0)).sum :=
    (hf.map _).sum_eq
  have hs2 : ((o₁.filter (fun cm => is_direct_child pm cm)).map
        (fun cm => ((lookupRow mm cm).map Row.anoAnterior).getD 0)).sum
      = ((o₂.filter (fun cm => is_direct_child pm cm)).map
        (fun cm => ((lookupRow mm cm).map Row.anoAnterior).getD 0)).sum :=
    (hf.map _).sum_eq
  simp only [checkParent]
  rw [hie, hs1, hs2]

theorem lookupRow_isSome {mm : List (String × Row)} {pm : String}
    (h : pm ∈ mm.map Prod.fst) : (lookupRow mm pm).isSome = true := by
  unfold lookupRow
  rw [Option.isSome_map']
  rw [List.find?_isSome]
  obtain ⟨p, hp, hfst⟩ := List.mem_map.mp h
  exact ⟨p, hp, by simp [hfst]⟩

theorem length_filterMap_countP {α β : Type} (f : α → Option β) (l : List α) :
    (l.filterMap f).length = l.countP (fun a => (f a).isSome) := by
  induction l with
  | nil => rfl
  | cons a as ih =>
      cases h : f a <;>
        simp [List.filterMap_cons, h, List.countP_cons, ih]

theorem blt_tolerance (x : Dec) :
    Dec.blt ⟨1, 0⟩ x.abs = decide ((1 : ℚ) < |x.toRat|) := by
  rw [Bool.eq_iff_iff, Dec.blt_iff, decide_eq_true_eq, Dec.toRat_abs]
  have h1 : Dec.toRat ⟨1, 0⟩ = 1 := by simp [Dec.toRat]
  rw [h1]

theorem checkParent_isSome_iff (mm : List (String × Row)) (pagina pm : String)
    (hmem : pm ∈ mm.map Prod.fst) :
    ((checkParent (mm.map Prod.fst) mm pagina pm).isSome) = violates mm pm := by
  obtain ⟨parentRow, hpr⟩ := Option.isSome_iff_exists.mp (lookupRow_isSome hmem)
  have hpv : ∀ f : Row → Dec, (f parentRow).toRat = maskValue mm pm f := by
    intro f
    unfold maskValue
    rw [hpr]
    rfl
  have hsum : ∀ f : Row → Dec,
      (((mm.map Prod.fst).filter (fun cm => is_direct_child pm cm)).map
        (fun cm => ((lookupRow mm cm).map f).getD 0)).sum.toRat
      = (((mm.map Prod.fst).filter (fun cm => is_direct_child pm cm)).map
        (fun cm => maskValue mm cm f)).sum := by
    intro f
    rw [Dec.toRat_sum, List.map_map]
    rfl
  simp only [checkParent, violates, childrenOf]
  cases hie : ((mm.map Prod.fst).filter (fun cm => is_direct_child pm cm)).isEmpty
  · simp only [Bool.false_eq_true, if_false, hpr, Bool.not_false, Bool.true_and]
    have hb1 : Dec.blt ⟨1, 0⟩
        ((((mm.map Prod.fst).filter (fun cm => is_direct_child pm cm)).map
          (fun cm => ((lookupRow mm cm).map Row.anoAtual).getD 0)).sum
          - parentRow.anoAtual).abs
        = decide (1 < |(((mm.map Prod.fst).filter
            (fun cm => is_direct_child pm cm)).map
            (fun cm => maskValue mm cm Row.anoAtual)).sum
            - maskValue mm pm Row.anoAtual|) := by
      rw [blt_tolerance, Dec.toRat_sub, hsum, hpv]
    have hb2 : Dec.blt ⟨1, 0⟩
        ((((mm.map Prod.fst).filter (fun cm => is_direct_child pm cm)).map
          (fun cm => ((lookupRow mm cm).map Row.anoAnterior).getD 0)).sum
          - parentRow.anoAnterior).abs
        = decide (1 < |(((mm.map Prod.fst).filter
            (fun cm => is_direct_child pm cm)).map
            (fun cm => maskValue mm cm Row.anoAnterior)).sum
            - maskValue mm pm Row.anoAnterior|) := by
      rw [blt_tolerance, Dec.toRat_sub, hsum, hpv]
    rw [hb1, hb2]
    cases hcond : (decide (1 < |(((mm.map Prod.fst).filter
            (fun cm => is_direct_child pm cm)).map
            (fun cm => maskValue mm cm Row.anoAtual)).sum
            - maskValue mm pm Row.anoAtual|)
        || decide (1 < |(((mm.map Prod.fst).filter
            (fun cm => is_direct_child pm cm)).map
            (fun cm => maskValue mm cm Row.anoAnterior)).sum
            - maskValue mm pm Row.anoAnterior|))
    · simp [hcond]
    · simp [hcond]
  · simp [hie]

theorem validar_perm (enum : List String → List String)
    (hadm : ∀ l : List String, (enum l).Perm l) (rows : List Row) :
    (validar_aritmetica enum rows).Perm (validar_aritmetica id rows) := by
  unfold validar_aritmetica
  apply List.Perm.flatMap_left
  intro k _
  dsimp only [id]
  have h1 : (enum ((groupMaskMap rows k).map Prod.fst)).filterMap
        (fun pm => checkParent (enum ((groupMaskMap rows k).map Prod.fst))
          (groupMaskMap rows k) k.2.2 pm)
      = (enum ((groupMaskMap rows k).map Prod.fst)).filterMap
        (fun pm => checkParent ((groupMaskMap rows k).map Prod.fst)
          (groupMaskMap rows k) k.2.2 pm) :=
    List.filterMap_congr (fun pm _ =>
      checkParent_perm (groupMaskMap rows k) k.2.2 pm (hadm _))
  rw [h1]
  exact (hadm _).filterMap _

theorem validar_length (enum : List String → List String)
    (hadm : ∀ l : List String, (enum l).Perm l) (rows : List Row) :
    (validar_aritmetica enum rows).length = totalViolations rows := by
  unfold validar_aritmetica totalViolations
  rw [List.length_flatMap]
  congr 1
  apply List.map_eq_map_iff.mpr
  intro k _
  simp only [Function.comp]
  rw [List.filterMap_congr (fun pm _ =>
    checkParent_perm (groupMaskMap rows k) k.2.2 pm (hadm _))]
  rw [length_filterMap_countP]
  rw [(hadm _).countP_eq]
  apply List.countP_congr
  intro pm hpm
  rw [checkParent_isSome_iff (groupMaskMap rows k) k.2.2 pm hpm]

/-- C4: for all mask strings X and Y, `is_direct_child X Y` holds exactly
when Y begins with X followed by the separator `.` and the level of Y (dot
count plus one) equals the level of X plus one; in particular
`is_direct_child "1" "1.01"` is true, `is_direct_child "1" "1.01.01"` is
false, and `is_direct_child "1.01" "1.01.01"` is true. -/
theorem claim_C4 :
    (∀ X Y : String, is_direct_child X Y = true ↔
      ((X ++ ".").data <+: Y.data ∧ get_level Y = get_level X + 1))
    ∧ is_direct_child "1" "1.01" = true
    ∧ is_direct_child "1" "1.01.01" = false
    ∧ is_direct_child "1.01" "1.01.01" = true := by
  refine ⟨?_, by decide, by decide, by decide⟩
  intro X Y
  unfold is_direct_child
  rw [Bool.and_eq_true, List.isPrefixOf_iff_prefix, beq_iff_eq]

/-- C2: the hierarchy check iterates over the Python set of a group's
masks, whose order is unspecified; two admissible iteration orders of the
same mask set (insertion order and its reverse, both permutations of the
key list) produce different report sequences on a group with two
inconsistent parents, so the output is not reproducible across runs as the
claim requires. -/
theorem claim_C2 :
    (∀ l : List String, l.reverse.Perm l)
    ∧ (validar_aritmetica id c2Rows).length = 2
    ∧ validar_aritmetica id c2Rows
        ≠ validar_aritmetica (fun l => l.reverse) c2Rows :=
  ⟨fun l => List.reverse_perm l, by decide, by decide⟩

/-- C3: for the group with parent mask 1 (current 100.00) and children 1.01
(60.00) and 1.02 (41.50), the validator reports exactly one inconsistency,
for mask 1, with expected children sum 101.50, found parent value 100.00
and difference 1.50, under every admissible iteration order of the mask
set; with 1.02 changed to 40.00 (children sum exactly 100.00) it reports
nothing. -/
theorem claim_C3 : ∀ enum : List String → List String,
    (∀ l : List String, (enum l).Perm l) →
    (validar_aritmetica enum c3RowsBad).map
        (fun r => (r.pagina, r.mascara, r.esperadoAtual.toRat,
          r.encontradoAtual.toRat, r.diffAtual.toRat))
      = [("PDF1-P1", "1", 101.5, 100, 1.5)]
    ∧ validar_aritmetica enum c3RowsGood = [] := by
  intro enum hadm
  constructor
  · have hperm := validar_perm enum hadm c3RowsBad
    have hid : validar_aritmetica id c3RowsBad
        = [⟨"PDF1-P1", "1", "ATIVO", ⟨1015000, 4⟩, ⟨10000, 2⟩, ⟨1500000, 6⟩,
            ⟨0, 0⟩, ⟨0, 0⟩, ⟨0, 0⟩⟩] := by decide
    rw [hid] at hperm
    rw [hperm.eq_singleton]
    simp only [List.map_cons, List.map_nil]
    norm_num [Dec.toRat]
  · have hperm := validar_perm enum hadm c3RowsGood
    have hid : validar_aritmetica id c3RowsGood = [] := by decide
    rw [hid] at hperm
    exact hperm.eq_nil

/-- Witness for C3 at the identity iteration order. -/
theorem claim_C3_witness :
    (validar_aritmetica id c3RowsBad).map
        (fun r => (r.pagina, r.mascara, r.esperadoAtual.toRat,
          r.encontradoAtual.toRat, r.diffAtual.toRat))
      = [("PDF1-P1", "1", 101.5, 100, 1.5)]
    ∧ validar_aritmetica id c3RowsGood = [] :=
  claim_C3 id (fun l => List.Perm.refl l)

/-- Counterexample to C1 as stated: on a group whose parent is off by
10.00 in the current period and by 10.00 in the prior period (both
comparisons exceed the tolerance 1.0, as the report data shows), the
validator emits one single report, not the two independent reports the
claim predicts; a parent can never appear in two reports. -/
theorem claim_C1_counterexample :
    (validar_aritmetica id c1Rows).length = 1
    ∧ (validar_aritmetica id c1Rows).map
        (fun r => (r.mascara, r.diffAtual.toRat, r.diffAnterior.toRat))
      = [("1", 10, 10)]
    ∧ (1 : ℚ) < |(10 : ℚ)| := by
  refine ⟨by decide, ?_, by norm_num⟩
  have hid : validar_aritmetica id c1Rows
      = [⟨"PDF1-P1", "1", "ATIVO", ⟨1100000, 4⟩, ⟨10000, 2⟩, ⟨10000000, 6⟩,
          ⟨1100000, 4⟩, ⟨10000, 2⟩, ⟨10000000, 6⟩⟩] := by decide
  rw [hid]
  simp only [List.map_cons, List.map_nil]
  norm_num [Dec.toRat]

/-- C1 (amended): per parent mask with direct children in a statement
group, the validator emits exactly one combined report — covering both the
current and the prior comparison — when the children sum differs from the
parent value by more than the tolerance 1.0 in the current period or in
the prior period, and no report otherwise; hence a parent appears in zero
or one report, and the number of reports equals the number of violating
parents across groups. -/
theorem claim_C1 : ∀ enum : List String → List String,
    (∀ l : List String, (enum l).Perm l) → ∀ rows : List Row,
    (validar_aritmetica enum rows).length = totalViolations rows :=
  fun enum hadm rows => validar_length enum hadm rows

/-- Witness for C1 at the identity iteration order on the counterexample
group. -/
theorem claim_C1_witness :
    (validar_aritmetica id c1Rows).length = totalViolations c1Rows
    ∧ (validar_aritmetica id c1Rows).length = 1 :=
  ⟨claim_C1 id (fun l => List.Perm.refl l) c1Rows, by decide⟩

/-- C7: the Number Normalizer maps `"R$ 1.234,56"` to 1234.56,
`"(1.234,56)"` to -1234.56 (parenthesized text is negated), `"1,234.56"`
and `"1.234,56"` both to 1234.56 (with both separators present the later
one is the decimal point), the empty string and a lone dash to 0, numeric
input 1500 to 1500, and any string whose cleaned digit text fails the
final float parse to 0. -/
theorem claim_C7 :
    (normalize_number (.str "R$ 1.234,56")).toRat = 1234.56
    ∧ (normalize_number (.str "(1.234,56)")).toRat = -1234.56
    ∧ (normalize_number (.str "1,234.56")).toRat = 1234.56
    ∧ (normalize_number (.str "1.234,56")).toRat = 1234.56
    ∧ (normalize_number (.str "")).toRat = 0
    ∧ (normalize_number (.str "-")).toRat = 0
    ∧ (normalize_number (.num ⟨1500, 0⟩)).toRat = 1500
    ∧ (∀ s : String, parseFloat (normalizedDigits s) = none →
        (normalize_number (.str s)).toRat = 0) := by
  refine ⟨?_, ?_, ?_, ?_, ?_, ?_, ?_, ?_⟩
  · rw [show normalize_number (.str "R$ 1.234,56") = (⟨123456, 2⟩ : Dec) from by decide]
    norm_num [Dec.toRat]
  · rw [show normalize_number (.str "(1.234,56)") = (⟨-123456, 2⟩ : Dec) from by decide]
    norm_num [Dec.toRat]
  · rw [show normalize_number (.str "1,234.56") = (⟨123456, 2⟩ : Dec) from by decide]
    norm_num [Dec.toRat]
  · rw [show normalize_number (.str "1.234,56") = (⟨123456, 2⟩ : Dec) from by decide]
    norm_num [Dec.toRat]
  · rw [show normalize_number (.str "") = (⟨0, 0⟩ : Dec) from by decide]
    norm_num [Dec.toRat]
  · rw [show normalize_number (.str "-") = (⟨0, 0⟩ : Dec) from by decide]
    norm_num [Dec.toRat]
  · norm_num [normalize_number, Dec.toRat]
  · intro s h
    unfold normalize_number
    dsimp only
    by_cases hd : stripChars s.data = [] ∨ stripChars s.data = ['-']
        ∨ stripChars s.data = ['–'] ∨ stripChars s.data = ['—']
    · rw [if_pos hd]
      norm_num [Dec.toRat]
    · rw [if_neg hd, h]
      norm_num [Dec.toRat]

/-- Witness for C7: the unparseable residue case at the concrete string
`"abc"`. -/
theorem claim_C7_witness :
    parseFloat (normalizedDigits "abc") = none
    ∧ (normalize_number (.str "abc")).toRat = 0 :=
  ⟨by decide, claim_C7.2.2.2.2.2.2.2 "abc" (by decide)⟩

/-- C10: the Number Normalizer deletes every occurrence of `R`, `$` and
whitespace anywhere in the string before parsing (so `"1 234,56"` parses
as 1234.56 and `"12R3"` as 123), while the lowercase `r` is not stripped
and such inputs fall back to 0. -/
theorem claim_C10 :
    (normalize_number (.str "1 234,56")).toRat = 1234.56
    ∧ (normalize_number (.str "12R3")).toRat = 123
    ∧ (normalize_number (.str "12r3")).toRat = 0
    ∧ (∀ l : List Char, 'R' ∉ removeCurrencyWS l ∧ '$' ∉ removeCurrencyWS l
        ∧ ∀ c ∈ removeCurrencyWS l, isPyWS c = false)
    ∧ (∀ l : List Char, 'r' ∈ l → 'r' ∈ removeCurrencyWS l) := by
  refine ⟨?_, ?_, ?_, ?_, ?_⟩
  · rw [show normalize_number (.str "1 234,56") = (⟨123456, 2⟩ : Dec) from by decide]
    norm_num [Dec.toRat]
  · rw [show normalize_number (.str "12R3") = (⟨123, 0⟩ : Dec) from by decide]
    norm_num [Dec.toRat]
  · rw [show normalize_number (.str "12r3") = (⟨0, 0⟩ : Dec) from by decide]
    norm_num [Dec.toRat]
  · intro l
    refine ⟨?_, ?_, ?_⟩
    · intro hc
      have h2 := (List.mem_filter.mp hc).2
      simp at h2
    · intro hc
      have h2 := (List.mem_filter.mp hc).2
      simp at h2
    · intro c hc
      have h2 := (List.mem_filter.mp hc).2
      simp only [Bool.not_eq_true', Bool.or_eq_false_iff] at h2
      exact h2.2
  · intro l hr
    exact List.mem_filter.mpr ⟨hr, by decide⟩

/-- Witness for C10: the lowercase `r` of `"12r3"` survives the cleaning
step, and the digit `1` is kept and is not whitespace. -/
theorem claim_C10_witness :
    'r' ∈ removeCurrencyWS ("12r3".data)
    ∧ isPyWS '1' = false :=
  ⟨claim_C10.2.2.2.2 ("12r3".data) (by decide),
   (claim_C10.2.2.2.1 ("12r3".data)).2.2 '1' (by decide)⟩

/-- C5: the deduplicator returns one row per distinct key
(type, mask, account name, origin label), in first-seen order; every
output row takes all non-value fields from the first occurrence of its key
and its two values are the sums of the corresponding values over all input
rows with that key; in particular two rows sharing the key with values
(a1, b1) and (a2, b2) merge into a single row with values
(a1 + a2, b1 + b2) at the position of the first occurrence. -/
theorem claim_C5 : ∀ rows : List Row,
    ((deduplicate rows).map dedupKey = firstSeen (rows.map dedupKey)
      ∧ ((deduplicate rows).map dedupKey).Nodup)
    ∧ (∀ q ∈ deduplicate rows, ∃ first, first ∈ rows ∧ dedupKey first = dedupKey q
        ∧ q.tipo = first.tipo ∧ q.periodo = first.periodo ∧ q.conta = first.conta
        ∧ q.mascara = first.mascara ∧ q.pagina = first.pagina
        ∧ q.anoAtual = ((rows.filter
            (fun x => decide (dedupKey x = dedupKey first))).map Row.anoAtual).sum
        ∧ q.anoAnterior = ((rows.filter
            (fun x => decide (dedupKey x = dedupKey first))).map Row.anoAnterior).sum)
    ∧ (∀ r1 r2 : Row, dedupKey r1 = dedupKey r2 →
        deduplicate [r1, r2]
          = [{ r1 with anoAnterior := r1.anoAnterior + r2.anoAnterior,
                       anoAtual := r1.anoAtual + r2.anoAtual }]) := by
  intro rows
  refine ⟨⟨?_, ?_⟩, ?_, ?_⟩
  · rw [deduplicate_eq_dedupSpec, dedupSpec_map_key]
  · rw [deduplicate_eq_dedupSpec, dedupSpec_map_key]
    exact firstSeen_nodup _
  · rw [deduplicate_eq_dedupSpec]
    exact dedupSpec_mem rows
  · intro r1 r2 h
    show List.foldl addRow [] [r1, r2] = _
    rw [List.foldl_cons, List.foldl_cons, List.foldl_nil]
    have h1 : addRow [] r1 = [r1] := by simp [addRow]
    rw [h1]
    unfold addRow
    have hany : ([r1].any fun g => decide (dedupKey g = dedupKey r2)) = true := by
      simp [h]
    rw [hany]
    simp [h]

/-- Witness for C5: the two-row merge law and the output characterization
at a concrete duplicate pair. -/
theorem claim_C5_witness :
    deduplicate [c5Row1, c5Row2]
      = [{ c5Row1 with anoAnterior := c5Row1.anoAnterior + c5Row2.anoAnterior,
                       anoAtual := c5Row1.anoAtual + c5Row2.anoAtual }]
    ∧ ∃ first, first ∈ [c5Row1, c5Row2] ∧ dedupKey first = dedupKey
        (⟨"BP", "09/2023", "Caixa", "1.01", ⟨15000, 4⟩, ⟨27500, 4⟩, "PDF1-P1"⟩ : Row)
      ∧ True :=
  ⟨(claim_C5 [c5Row1, c5Row2]).2.2 c5Row1 c5Row2 (by decide),
   by
    obtain ⟨first, hmem, hkey, -⟩ :=
      (claim_C5 [c5Row1, c5Row2]).2.1
        ⟨"BP", "09/2023", "Caixa", "1.01", ⟨15000, 4⟩, ⟨27500, 4⟩, "PDF1-P1"⟩
        (by decide)
    exact ⟨first, hmem, hkey, trivial⟩⟩

/-- C8: the hierarchy validator groups rows by the stripped
(type, period, origin) triple, so two rows inside the same group always
agree on the stripped origin label; a mask is never a direct child of
itself, so rows with identical masks are never compared as parent and
child; and the dedup key contains the origin label, so rows with different
origin labels have different keys and pass through `deduplicate`
unmerged. -/
theorem claim_C8 :
    (∀ rows : List Row, ∀ k : String × String × String,
        ∀ r ∈ groupRowsOf rows k, ∀ s ∈ groupRowsOf rows k,
        stripS r.pagina = stripS s.pagina)
    ∧ (∀ X : String, is_direct_child X X = false)
    ∧ (∀ r s : Row, r.pagina ≠ s.pagina →
        dedupKey r ≠ dedupKey s ∧ deduplicate [r, s] = [r, s]) := by
  refine ⟨?_, ?_, ?_⟩
  · intro rows k r hr s hs
    have hrk := (List.mem_filter.mp hr).2
    have hsk := (List.mem_filter.mp hs).2
    rw [decide_eq_true_eq] at hrk hsk
    have : (gkey r).2.2 = (gkey s).2.2 := by rw [hrk, hsk]
    exact this
  · intro X
    rw [Bool.eq_false_iff]
    intro hc
    unfold is_direct_child at hc
    rw [Bool.and_eq_true] at hc
    obtain ⟨-, h2⟩ := hc
    rw [beq_iff_eq] at h2
    omega
  · intro r s hps
    have hk : dedupKey r ≠ dedupKey s := by
      intro hc
      exact hps (congrArg (fun t => t.2.2.2) hc)
    refine ⟨hk, ?_⟩
    show List.foldl addRow [] [r, s] = [r, s]
    rw [List.foldl_cons, List.foldl_cons, List.foldl_nil]
    have h1 : addRow [] r = [r] := by simp [addRow]
    rw [h1]
    unfold addRow
    have hany : ([r].any fun g => decide (dedupKey g = dedupKey s)) = false := by
      simp [hk]
    rw [hany]
    simp

/-- Witness for C8: same-page rows share the stripped origin inside a
group, and two rows with the same mask on different pages are not
merged. -/
theorem claim_C8_witness :
    stripS c8Row1.pagina = stripS c8Row3.pagina
    ∧ dedupKey c8Row1 ≠ dedupKey c8Row2
    ∧ deduplicate [c8Row1, c8Row2] = [c8Row1, c8Row2] := by
  have h3 := claim_C8.2.2 c8Row1 c8Row2 (by decide)
  exact ⟨claim_C8.1 [c8Row1, c8Row3] (gkey c8Row1) c8Row1 (by decide)
    c8Row3 (by decide), h3.1, h3.2⟩

/-- C6: the mask-inference collaborator is invoked exactly when the row
list is nonempty and the fraction of rows with an empty mask is at or
above the configured threshold 0.80; in particular 3 missing of 5 rows (60
percent) triggers no call and 9 missing of 10 rows (90 percent) does. -/
theorem claim_C6 :
    (∀ rows : List Row, shouldGenerateMasks rows = true ↔
      (rows ≠ [] ∧ maskGenerationThreshold
        ≤ (missingMaskCount rows : ℚ) / (rows.length : ℚ)))
    ∧ shouldGenerateMasks c6RowsLow = false
    ∧ shouldGenerateMasks c6RowsHigh = true := by
  have hiff : ∀ rows : List Row, shouldGenerateMasks rows = true ↔
      (rows ≠ [] ∧ maskGenerationThreshold
        ≤ (missingMaskCount rows : ℚ) / (rows.length : ℚ)) := by
    intro rows
    unfold shouldGenerateMasks verificar_mascaras
    dsimp only
    by_cases h0 : missingMaskCount rows = 0
    · rw [h0]
      simp only [Nat.zero_eq, beq_self_eq_true, if_true]
      constructor
      · intro hc
        exact absurd hc (by simp)
      · rintro ⟨hne, hle⟩
        rw [Nat.cast_zero, zero_div] at hle
        norm_num [maskGenerationThreshold] at hle
    · have hne : rows ≠ [] := by
        intro he
        subst he
        exact h0 rfl
      have hbeq : (missingMaskCount rows == 0) = false := by
        simp [h0]
      rw [hbeq]
      simp only [Bool.false_eq_true, if_false]
      have hny : rows.isEmpty = false := by
        cases rows with
        | nil => exact absurd rfl hne
        | cons a as => rfl
      rw [hny]
      simp only [Bool.not_false, if_true, decide_eq_true_eq]
      constructor
      · intro hle
        exact ⟨hne, hle⟩
      · rintro ⟨-, hle⟩
        exact hle
  refine ⟨hiff, ?_, ?_⟩
  · rw [Bool.eq_false_iff]
    intro hc
    obtain ⟨-, hle⟩ := (hiff c6RowsLow).mp hc
    rw [show missingMaskCount c6RowsLow = 3 from by decide,
      show c6RowsLow.length = 5 from by decide] at hle
    norm_num [maskGenerationThreshold] at hle
  · apply (hiff c6RowsHigh).mpr
    refine ⟨by decide, ?_⟩
    rw [show missingMaskCount c6RowsHigh = 9 from by decide,
      show c6RowsHigh.length = 10 from by decide]
    norm_num [maskGenerationThreshold]

theorem applyOne_length (rows : List Row) (u : MaskUpdate) :
    (applyOne rows u).length = rows.length := by
  unfold applyOne
  cases u.index with
  | none => rfl
  | some idx =>
      dsimp only
      split
      · split
        · rfl
        · split
          · exact List.length_set rows _ _
          · rfl
      · rfl

theorem apply_length (upds : List MaskUpdate) :
    ∀ rows : List Row, (gerar_mascaras_apply rows upds).length = rows.length := by
  induction upds with
  | nil => intro rows; rfl
  | cons u us ih =>
      intro rows
      have h1 : gerar_mascaras_apply rows (u :: us)
          = gerar_mascaras_apply (applyOne rows u) us := rfl
      rw [h1, ih (applyOne rows u), applyOne_length]

theorem applyOne_get_preserve (rows : List Row) (u : MaskUpdate) (i : ℕ) (r : Row)
    (h : rows.get? i = some r) (hne : stripS r.mascara ≠ "") :
    (applyOne rows u).get? i = some r := by
  unfold applyOne
  cases u.index with
  | none => exact h
  | some idx =>
      dsimp only
      split
      · split
        · exact h
        · next row hrow =>
            split
            · next hemp =>
                by_cases hij : idx.toNat = i
                · subst hij
                  rw [h] at hrow
                  have hreq : r = row := Option.some.inj hrow
                  rw [hreq] at hne
                  exact absurd hemp hne
                · rw [List.get?_set_ne _ _ hij]
                  exact h
            · exact h
      · exact h

theorem apply_get_preserve (upds : List MaskUpdate) :
    ∀ (rows : List Row) (i : ℕ) (r : Row), rows.get? i = some r →
      stripS r.mascara ≠ "" → (gerar_mascaras_apply rows upds).get? i = some r := by
  induction upds with
  | nil => intro rows i r h _; exact h
  | cons u us ih =>
      intro rows i r h hne
      show (List.foldl applyOne (applyOne rows u) us).get? i = some r
      exact ih (applyOne rows u) i r (applyOne_get_preserve rows u i r h hne) hne

theorem applyOne_out_of_range (rows : List Row) (u : MaskUpdate) (idx : ℤ)
    (hidx : u.index = some idx) (hout : idx < 0 ∨ (rows.length : ℤ) ≤ idx) :
    applyOne rows u = rows := by
  unfold applyOne
  rw [hidx]
  dsimp only
  rw [if_neg]
  rintro ⟨-, h1, h2⟩
  rcases hout with h | h <;> omega

theorem applyOne_applied (rows : List Row) (u : MaskUpdate) (idx : ℤ) (row : Row)
    (hidx : u.index = some idx) (hm : stripS u.mascara ≠ "") (h0 : 0 ≤ idx)
    (hlt : idx < (rows.length : ℤ)) (hrow : rows.get? idx.toNat = some row)
    (hemp : stripS row.mascara = "") :
    applyOne rows u = rows.set idx.toNat { row with mascara := stripS u.mascara } := by
  unfold applyOne
  rw [hidx]
  dsimp only
  rw [if_pos ⟨hm, h0, hlt⟩]
  split
  · next hnone =>
      rw [hrow] at hnone
      exact absurd hnone (by simp)
  · next row' hrow' =>
      rw [hrow] at hrow'
      have heq : row = row' := Option.some.inj hrow'
      subst heq
      rw [if_pos hemp]

theorem applyOne_skip_filled (rows : List Row) (u : MaskUpdate) (idx : ℤ) (row : Row)
    (hidx : u.index = some idx) (hrow : rows.get? idx.toNat = some row)
    (hfilled : stripS row.mascara ≠ "") :
    applyOne rows u = rows := by
  unfold applyOne
  rw [hidx]
  dsimp only
  split
  · split
    · rfl
    · next row' hrow' =>
        rw [hrow] at hrow'
        have heq : row = row' := Option.some.inj hrow'
        subst heq
        rw [if_neg hfilled]
  · rfl

theorem applyOne_post (rows : List Row) (u : MaskUpdate) (us : List MaskUpdate) :
    applyOne (gerar_mascaras_apply (applyOne rows u) us) u
      = gerar_mascaras_apply (applyOne rows u) us := by
  cases hidx : u.index with
  | none =>
      unfold applyOne
      rw [hidx]
  | some idx =>
      have hlen : (gerar_mascaras_apply (applyOne rows u) us).length = rows.length := by
        rw [apply_length, applyOne_length]
      by_cases hm : stripS u.mascara ≠ ""
      case neg =>
        unfold applyOne
        rw [hidx]
        dsimp only
        rw [if_neg]
        rintro ⟨hm', -, -⟩
        exact hm hm'
      case pos =>
        by_cases h0 : 0 ≤ idx
        case neg =>
          exact applyOne_out_of_range _ u idx hidx (Or.inl (by omega))
        case pos =>
          by_cases hlt : idx < (rows.length : ℤ)
          case neg =>
            refine applyOne_out_of_range _ u idx hidx (Or.inr ?_)
            rw [hlen]
            omega
          case pos =>
            have hltn : idx.toNat < rows.length := by omega
            cases hrow : rows.get? idx.toNat with
            | none =>
                rw [List.get?_eq_none] at hrow
                omega
            | some row =>
                by_cases hemp : stripS row.mascara = ""
                · have happ := applyOne_applied rows u idx row hidx hm h0 hlt hrow hemp
                  have hget : (gerar_mascaras_apply (applyOne rows u) us).get? idx.toNat
                      = some { row with mascara := stripS u.mascara } := by
                    apply apply_get_preserve
                    · rw [happ]
                      exact List.get?_set_eq_of_lt _ hltn
                    · show stripS (stripS u.mascara) ≠ ""
                      rw [stripS_idem]
                      exact hm
                  apply applyOne_skip_filled _ u idx _ hidx hget
                  show stripS (stripS u.mascara) ≠ ""
                  rw [stripS_idem]
                  exact hm
                · have happ : applyOne rows u = rows :=
                    applyOne_skip_filled rows u idx row hidx hrow hemp
                  rw [happ]
                  exact applyOne_skip_filled _ u idx row hidx
                    (apply_get_preserve us rows idx.toNat row hrow hemp) hemp

theorem apply_idem (upds : List MaskUpdate) :
    ∀ rows : List Row,
      gerar_mascaras_apply (gerar_mascaras_apply rows upds) upds
        = gerar_mascaras_apply rows upds := by
  induction upds with
  | nil => intro rows; rfl
  | cons u us ih =>
      intro rows
      have h1 : ∀ l : List Row, gerar_mascaras_apply l (u :: us)
          = gerar_mascaras_apply (applyOne l u) us := fun _ => rfl
      rw [h1, h1, applyOne_post, ih]

/-- C9: when merging collaborator suggestions, a row whose mask is already
nonempty is never changed by the merge loop; a pair whose index is out of
range of the row list is silently ignored; and applying the same
suggestion list twice leaves the rows unchanged after the first
application. -/
theorem claim_C9 :
    (∀ (rows : List Row) (upds : List MaskUpdate) (i : ℕ) (r : Row),
        rows.get? i = some r → stripS r.mascara ≠ "" →
        (gerar_mascaras_apply rows upds).get? i = some r)
    ∧ (∀ (rows : List Row) (u : MaskUpdate) (idx : ℤ), u.index = some idx →
        (idx < 0 ∨ (rows.length : ℤ) ≤ idx) → applyOne rows u = rows)
    ∧ (∀ (rows : List Row) (upds : List MaskUpdate),
        gerar_mascaras_apply (gerar_mascaras_apply rows upds) upds
          = gerar_mascaras_apply rows upds) :=
  ⟨fun rows upds i r h hne => apply_get_preserve upds rows i r h hne,
   fun rows u idx hidx hout => applyOne_out_of_range rows u idx hidx hout,
   fun rows upds => apply_idem upds rows⟩

/-- Witness for C9 on a concrete row list and suggestion list: the filled
row 0 is preserved, an out-of-range pair is ignored, and the merge is
idempotent. -/
theorem claim_C9_witness :
    (gerar_mascaras_apply c9Rows c9Upds).get? 0
      = some ⟨"BP", "09/2023", "ATIVO", "1", ⟨0, 0⟩, ⟨0, 0⟩, "PDF1-P1"⟩
    ∧ applyOne c9Rows ⟨some 7, "2"⟩ = c9Rows
    ∧ gerar_mascaras_apply (gerar_mascaras_apply c9Rows c9Upds) c9Upds
        = gerar_mascaras_apply c9Rows c9Upds :=
  ⟨claim_C9.1 c9Rows c9Upds 0
      ⟨"BP", "09/2023", "ATIVO", "1", ⟨0, 0⟩, ⟨0, 0⟩, "PDF1-P1"⟩
      (by decide) (by decide),
   claim_C9.2.1 c9Rows ⟨some 7, "2"⟩ 7 rfl (by decide),
   claim_C9.2.2 c9Rows c9Upds⟩
